import Mathlib

/-!
Verification of the `rust-xyz-chem` XYZ-file parser and serializer
(`src/lib.rs`), shallowly embedded in Lean 4.

The embedding follows the source closely:
* lines are `List String` (what Rust's `BufRead::lines` yields; the
  line splitter `linesOfStr` below models `lines()` including its
  CRLF stripping);
* `f64` is abstracted into a `FloatModel` (a carrier with a `fromStr`
  and a `display` function); the concrete model `ratModel` interprets
  the Rust `f64` grammar exactly over `ℚ` (extended with `inf`/`nan`),
  without binary64 rounding, which no property here depends on;
* `usize` parsing keeps the 64-bit overflow bound;
* fallible operations return `Except`, mirroring `Result`.
-/

instance {ε α : Type _} [DecidableEq ε] [DecidableEq α] :
    DecidableEq (Except ε α) := fun a b =>
  match a, b with
  | .error e, .error e' =>
    if h : e = e' then .isTrue (by rw [h]) else .isFalse (by simp [h])
  | .error _, .ok _ => .isFalse (by simp)
  | .ok _, .error _ => .isFalse (by simp)
  | .ok v, .ok v' =>
    if h : v = v' then .isTrue (by rw [h]) else .isFalse (by simp [h])

namespace Xyz

/-- Unicode White_Space test, as Rust's `char::is_whitespace`
(`str::split_whitespace` splits on it). -/
def rustIsWhitespace (c : Char) : Bool :=
  c.toNat = 32 || (9 ≤ c.toNat && c.toNat ≤ 13) || c.toNat = 133 ||
  c.toNat = 160 || c.toNat = 5760 || (8192 ≤ c.toNat && c.toNat ≤ 8202) ||
  c.toNat = 8232 || c.toNat = 8233 || c.toNat = 8239 || c.toNat = 8287 ||
  c.toNat = 12288

/-- ASCII digit test (what Rust's integer and float grammars accept). -/
def isAsciiDigit (c : Char) : Bool :=
  48 ≤ c.toNat && c.toNat ≤ 57

/-- Accumulator-based tokenizer: `tokAux cs acc` scans `cs`, `acc` holding the
(reversed) current token. Models `str::split_whitespace`. -/
def tokAux : List Char → List Char → List (List Char)
  | [], acc => if acc = [] then [] else [acc.reverse]
  | c :: cs, acc =>
    if rustIsWhitespace c then
      if acc = [] then tokAux cs [] else acc.reverse :: tokAux cs []
    else tokAux cs (c :: acc)

/-- `str::split_whitespace`: maximal runs of non-whitespace characters. -/
def splitWhitespace (s : String) : List String :=
  (tokAux s.data []).map String.mk

/-- Digit-list to number, most significant first. -/
def digitsToNat (ds : List Char) : Nat :=
  ds.foldl (fun a c => 10 * a + (c.toNat - 48)) 0

/-- `usize::from_str`: optional `+`, then one or more ASCII digits,
rejecting values that do not fit in 64 bits (Rust errors on overflow). -/
def rustParseUsize (s : String) : Option Nat :=
  let cs := if s.data.head? = some '+' then s.data.tail else s.data
  if cs = [] then none
  else if cs.all isAsciiDigit then
    let n := digitsToNat cs
    if n < 2 ^ 64 then some n else none
  else none

/-- An exact decimal number `mant * 10 ^ exp`. Canonical form (as produced
by `Dec.canon`) has `10 ∤ mant` for nonzero values and is `⟨0, 0⟩` for zero,
so equality of canonical forms is equality of the denoted values. -/
structure Dec where
  mant : Int
  exp : Int
  deriving DecidableEq

/-- Strip factors of 10 from `m` into the exponent; the first argument is
fuel (`m.natAbs` is always enough). -/
def Dec.canonGo : Nat → Int → Int → Dec
  | 0, m, e => ⟨m, e⟩
  | fuel + 1, m, e =>
    if m % 10 = 0 then Dec.canonGo fuel (m / 10) (e + 1) else ⟨m, e⟩

/-- Canonical form of `m * 10 ^ e`. -/
def Dec.canon (m e : Int) : Dec :=
  if m = 0 then ⟨0, 0⟩ else Dec.canonGo m.natAbs m e

/-- The rational a `Dec` denotes. -/
def Dec.toRat (d : Dec) : ℚ :=
  (d.mant : ℚ) * (10 : ℚ) ^ d.exp

/-- The values an `f64` token denotes in the exact model: an exact decimal
(no binary64 rounding), or an infinity, or NaN. -/
inductive F64 where
  | finite (d : Dec)
  | inf (neg : Bool)
  | nan
  deriving DecidableEq

/-- Exponent suffix of the `f64` grammar: empty, or `e`/`E`, an optional
sign and one or more digits consuming the rest of the input. -/
def parseExpSuffix : List Char → Option Int
  | [] => some 0
  | c :: r =>
    if c = 'e' || c = 'E' then
      let (neg, r') := match r with
        | '+' :: t => (false, t)
        | '-' :: t => (true, t)
        | t => (false, t)
      let (ds, rest) := r'.span isAsciiDigit
      if ds = [] || rest ≠ [] then none
      else some (if neg then -(digitsToNat ds : Int) else (digitsToNat ds : Int))
    else none

/-- Value of integer digits `ds1`, fraction digits `ds2` and exponent `e`. -/
def decimalValue (ds1 ds2 : List Char) (e : Int) : Dec :=
  Dec.canon (digitsToNat (ds1 ++ ds2) : Int) (e - (ds2.length : Int))

/-- Number part of the `f64` grammar: `Digit+ ('.' Digit*)? Exp?` or
`Digit* '.' Digit+ Exp?` (so `1.`, `.5` are accepted, `.` is not). -/
def parseF64Number (cs : List Char) : Option Dec :=
  let (ds1, r1) := cs.span isAsciiDigit
  match r1 with
  | '.' :: r2 =>
    let (ds2, r3) := r2.span isAsciiDigit
    if ds1 = [] && ds2 = [] then none
    else match parseExpSuffix r3 with
      | some e => some (decimalValue ds1 ds2 e)
      | none => none
  | r1 =>
    if ds1 = [] then none
    else match parseExpSuffix r1 with
      | some e => some (decimalValue ds1 [] e)
      | none => none

/-- `f64::from_str`: optional sign, then case-insensitive `inf`, `infinity`
or `nan`, or a decimal number. -/
def rustParseF64 (s : String) : Option F64 :=
  let (neg, cs) := match s.data with
    | '+' :: r => (false, r)
    | '-' :: r => (true, r)
    | r => (false, r)
  let low := cs.map Char.toLower
  if low = "inf".data || low = "infinity".data then some (.inf neg)
  else if low = "nan".data then some .nan
  else match parseF64Number cs with
    | some d => some (.finite (if neg then ⟨-d.mant, d.exp⟩ else d))
    | none => none

/-- Decimal digits of `n` accumulated least-significant-first into `acc`;
the first argument is fuel (any amount at least `n` is enough). -/
def natToDecimalGo : Nat → Nat → List Char → List Char
  | 0, _, acc => acc
  | fuel + 1, n, acc =>
    if n = 0 then acc
    else natToDecimalGo fuel (n / 10) (Char.ofNat (48 + n % 10) :: acc)

/-- Decimal rendering of a natural number (Rust's `Display` for `usize`). -/
def natToDecimal (n : Nat) : List Char :=
  if n = 0 then ['0'] else natToDecimalGo n n []

/-- Decimal rendering of a canonical `Dec`; on exactly representable values
this is Rust's shortest-round-trip `Display` for `f64`. -/
def Dec.render (d : Dec) : String :=
  let sgn := if d.mant < 0 then "-" else ""
  let ds := natToDecimal d.mant.natAbs
  if 0 ≤ d.exp then sgn ++ String.mk (ds ++ List.replicate d.exp.toNat '0')
  else
    let k := (-d.exp).toNat
    let padded := List.replicate (k + 1 - ds.length) '0' ++ ds
    sgn ++ String.mk (padded.take (padded.length - k)) ++ "." ++
      String.mk (padded.drop (padded.length - k))

/-- `Display` for the exact `f64` model. -/
def F64.display : F64 → String
  | .nan => "NaN"
  | .inf false => "inf"
  | .inf true => "-inf"
  | .finite d => Dec.render d

/-- Abstraction of `f64` as used by the parser and serializer: a carrier
with `FromStr` and `Display`. -/
structure FloatModel where
  F : Type
  fromStr : String → Option F
  display : F → String

/-- The exact decimal interpretation of `f64`. -/
@[reducible] def ratModel : FloatModel where
  F := F64
  fromStr := rustParseF64
  display := F64.display

/-- `Position`: three coordinates (f64 in the source). -/
structure Position (F : Type) where
  x : F
  y : F
  z : F
  deriving DecidableEq

/-- `Atom`: a label and a `Position`. -/
structure Atom (F : Type) where
  label : String
  position : Position F
  deriving DecidableEq

/-- `Record`: declared atom count, comment line, and the atoms. -/
structure Record (F : Type) where
  count : Nat
  comment : String
  atoms : List (Atom F)
  deriving DecidableEq

/-- `File`: a sequence of records. -/
structure File (F : Type) where
  records : List (Record F)
  deriving DecidableEq

/-- `File::push`. -/
def File.push {F : Type} (f : File F) (r : Record F) : File F :=
  ⟨f.records ++ [r]⟩

/-- The error kinds of `ParseErrorKind` (payloads of the wrapped Rust
errors are not observable by any property here and are dropped). -/
inductive ParseErrorKind where
  | MissingValue
  | ParseIntError
  | ParseFloatError
  | ReadError
  deriving DecidableEq

/-- `ParseError`: an error kind with the line where it occurred. -/
structure ParseError where
  kind : ParseErrorKind
  line : Nat
  deriving DecidableEq

/-- `impl FromStr for Atom`, after tokenization: label, then three
coordinates, each token demanded before it is parsed, trailing tokens
ignored. -/
def Atom.fromTokens (M : FloatModel) : List String → Except ParseErrorKind (Atom M.F)
  | [] => .error .MissingValue
  | label :: rest =>
    match rest with
    | [] => .error .MissingValue
    | tx :: rest1 =>
      match M.fromStr tx with
      | none => .error .ParseFloatError
      | some x =>
        match rest1 with
        | [] => .error .MissingValue
        | ty :: rest2 =>
          match M.fromStr ty with
          | none => .error .ParseFloatError
          | some y =>
            match rest2 with
            | [] => .error .MissingValue
            | tz :: _ =>
              match M.fromStr tz with
              | none => .error .ParseFloatError
              | some z => .ok ⟨label, ⟨x, y, z⟩⟩

/-- `impl FromStr for Atom` on a line. -/
def Atom.from_str (M : FloatModel) (line : String) : Except ParseErrorKind (Atom M.F) :=
  Atom.fromTokens M (splitWhitespace line)

/-- The `ParseState` enum of the parsing loop. -/
inductive ParseState where
  | Count
  | Comment
  | Atoms
  deriving DecidableEq

/-- One record with no data yet: `Record::new("", &[])`. -/
def Record.empty {F : Type} : Record F := ⟨0, "", []⟩

/-- The parsing loop of `impl TryFrom<BufReader<fs::File>> for File`,
over the state, the record being built, the accumulated file, the current
line number and the remaining lines. End of input returns the accumulated
file whatever the state (the loop simply ends). -/
def runLines (M : FloatModel) :
    ParseState → Record M.F → File M.F → Nat → List String →
    Except ParseError (File M.F)
  | _, _, file, _, [] => .ok file
  | .Count, cur, file, n, line :: rest =>
    if line = "" then runLines M .Count cur file (n + 1) rest
    else
      match rustParseUsize line with
      | none => .error ⟨.ParseIntError, n⟩
      | some c => runLines M .Comment { cur with count := c } file (n + 1) rest
  | .Comment, cur, file, n, line :: rest =>
    runLines M .Atoms { cur with comment := line } file (n + 1) rest
  | .Atoms, cur, file, n, line :: rest =>
    match Atom.from_str M line with
    | .error k => .error ⟨k, n⟩
    | .ok a =>
      let cur' := { cur with atoms := cur.atoms ++ [a] }
      if cur'.atoms.length < cur'.count then
        runLines M .Atoms cur' file (n + 1) rest
      else
        runLines M .Count Record.empty (file.push cur') (n + 1) rest

/-- `File::try_from`, on the line sequence the reader yields. -/
def File.try_from (M : FloatModel) (lines : List String) :
    Except ParseError (File M.F) :=
  runLines M .Count Record.empty ⟨[]⟩ 0 lines

/-- Concatenation of a list of strings (the serializer's write loop). -/
def concatStrings : List String → String
  | [] => ""
  | s :: rest => s ++ concatStrings rest

/-- `impl Display for Position`: the three coordinates joined by tabs. -/
def Position.render (M : FloatModel) (p : Position M.F) : String :=
  M.display p.x ++ "\t" ++ M.display p.y ++ "\t" ++ M.display p.z

/-- `impl Display for Atom`: label, tab, position. -/
def Atom.render (M : FloatModel) (a : Atom M.F) : String :=
  a.label ++ "\t" ++ Position.render M a.position

/-- `impl Display for Record`: the stored count, the comment, then one
line per atom, each line newline-terminated. -/
def Record.render (M : FloatModel) (r : Record M.F) : String :=
  String.mk (natToDecimal r.count) ++ "\n" ++ r.comment ++ "\n" ++
    concatStrings (r.atoms.map (fun a => Atom.render M a ++ "\n"))

/-- `impl Display for File`: each record via `writeln!`, so every record
block is followed by one extra (blank) line. -/
def File.render (M : FloatModel) (f : File M.F) : String :=
  concatStrings (f.records.map (fun r => Record.render M r ++ "\n"))

/-- Drop a `'\r'` that a `"\r\n"` terminator left at the head of the
reversed accumulated line (used by `linesGo`). -/
def stripCRrev (acc : List Char) : List Char :=
  if acc.head? = some '\r' then acc.tail.reverse else acc.reverse

/-- `BufRead::lines` on raw text: split at each `'\n'`, strip a `'\r'`
preceding the `'\n'`; a last fragment not ending in `'\n'` is kept
verbatim, and a trailing `'\n'` does not open a further empty line. -/
def linesGo : List Char → List Char → List (List Char)
  | [], acc => if acc = [] then [] else [acc.reverse]
  | c :: rest, acc =>
    if c = '\n' then stripCRrev acc :: linesGo rest []
    else linesGo rest (c :: acc)

/-- The line sequence `BufRead::lines` yields on a text. -/
def linesOfStr (s : String) : List String :=
  (linesGo s.data []).map String.mk

/-- Parsing a whole text: what `File::try_from` does to a reader over it. -/
def File.parseText (M : FloatModel) (s : String) : Except ParseError (File M.F) :=
  File.try_from M (linesOfStr s)

/-- The expected line sequence of one rendered record: the decimal of its
stored count, its comment, one line per atom, and the blank separator the
`writeln!` in `impl Display for File` adds. -/
def recordLines (M : FloatModel) (r : Record M.F) : List String :=
  String.mk (natToDecimal r.count) :: r.comment ::
    (r.atoms.map (Atom.render M) ++ [""])

/-- What Rust guarantees of `f64`'s `Display`/`FromStr` pair and what the
round-trip property needs of a float model: displaying a value and parsing
it back recovers the value, and a displayed value is a nonempty token with
no whitespace in it. -/
def FloatModel.Good (M : FloatModel) : Prop :=
  (∀ x, M.fromStr (M.display x) = some x) ∧
  ∀ x, (M.display x).data ≠ [] ∧
    ∀ ch ∈ (M.display x).data, rustIsWhitespace ch = false

/-- A one-value float model (display `"0"`), a `Good` model used to
instantiate parametric statements at concrete inputs. -/
@[reducible] def unitModel : FloatModel where
  F := Unit
  fromStr := fun s => if s = "0" then some () else none
  display := fun _ => "0"

end Xyz

namespace Xyz

/-! ### General lemmas about the embedded definitions -/

theorem ws_not_digit {c : Char} (h : rustIsWhitespace c = true) :
    isAsciiDigit c = false := by
  cases hdig : isAsciiDigit c with
  | false => rfl
  | true =>
    exfalso
    simp only [isAsciiDigit, Bool.and_eq_true, decide_eq_true_eq] at hdig
    simp only [rustIsWhitespace, Bool.or_eq_true, Bool.and_eq_true,
      decide_eq_true_eq] at h
    omega

theorem natToDecimalGo_digits (fuel : Nat) :
    ∀ (n : Nat) (acc : List Char), (∀ c ∈ acc, isAsciiDigit c = true) →
      ∀ c ∈ natToDecimalGo fuel n acc, isAsciiDigit c = true := by
  induction fuel with
  | zero => intro n acc hacc; simpa [natToDecimalGo] using hacc
  | succ fuel ih =>
    intro n acc hacc c hc
    by_cases hn : n = 0
    · simp [natToDecimalGo, hn] at hc; exact hacc c hc
    · rw [natToDecimalGo, if_neg hn] at hc
      refine ih (n / 10) _ ?_ c hc
      intro d hd
      rw [List.mem_cons] at hd
      rcases hd with hd | hd
      · have hlt : n % 10 < 10 := Nat.mod_lt _ (by omega)
        subst hd
        revert hlt
        generalize n % 10 = k
        intro hlt
        interval_cases k <;> decide
      · exact hacc d hd

theorem natToDecimal_digits (n : Nat) :
    ∀ c ∈ natToDecimal n, isAsciiDigit c = true := by
  unfold natToDecimal
  by_cases hn : n = 0
  · simp [hn]; decide
  · rw [if_neg hn]
    exact natToDecimalGo_digits n n [] (by simp)

theorem natToDecimalGo_ne_nil (fuel : Nat) :
    ∀ (n : Nat) (acc : List Char), acc ≠ [] → natToDecimalGo fuel n acc ≠ [] := by
  induction fuel with
  | zero => intro n acc h; simpa [natToDecimalGo] using h
  | succ fuel ih =>
    intro n acc h
    by_cases hn : n = 0
    · simpa [natToDecimalGo, hn] using h
    · rw [natToDecimalGo, if_neg hn]
      exact ih (n / 10) _ (by simp)

theorem natToDecimal_ne_nil (n : Nat) : natToDecimal n ≠ [] := by
  unfold natToDecimal
  by_cases hn : n = 0
  · simp [hn]
  · rw [if_neg hn]
    cases n with
    | zero => exact absurd rfl hn
    | succ m =>
      rw [natToDecimalGo, if_neg hn]
      exact natToDecimalGo_ne_nil m _ _ (by simp)

theorem linesGo_append (l : List Char) (rest : List Char) :
    ∀ acc : List Char, (∀ c ∈ l, c ≠ '\n') →
      linesGo (l ++ '\n' :: rest) acc =
        stripCRrev (l.reverse ++ acc) :: linesGo rest [] := by
  induction l with
  | nil => intro acc _; simp [linesGo]
  | cons c l ih =>
    intro acc hl
    have hc : c ≠ '\n' := hl c (by simp)
    simp only [List.cons_append, linesGo, if_neg hc, List.append_eq]
    rw [ih (c :: acc) (fun d hd => hl d (by simp [hd]))]
    simp [List.append_assoc]

theorem stripCRrev_of_digits (ds : List Char) (hne : ds ≠ [])
    (hds : ∀ c ∈ ds, isAsciiDigit c = true) :
    stripCRrev (ds.reverse ++ []) = ds := by
  rw [List.append_nil]
  cases hrev : ds.reverse with
  | nil => exact absurd (List.reverse_eq_nil_iff.mp hrev) hne
  | cons c t =>
    have hc : c ∈ ds := by
      have hmem : c ∈ ds.reverse := by rw [hrev]; simp
      simpa using hmem
    have hcd := hds c hc
    have hcr : c ≠ '\r' := by
      intro h
      subst h
      exact absurd hcd (by decide)
    unfold stripCRrev
    rw [if_neg (by simp [hcr] : ¬((c :: t : List Char).head? = some '\r'))]
    rw [← hrev, List.reverse_reverse]

theorem runLines_nil (M : FloatModel) (st : ParseState) (cur : Record M.F)
    (f : File M.F) (n : Nat) : runLines M st cur f n [] = .ok f := by
  cases st <;> rfl

theorem except_toOption_eq_ok {ε α : Type _} (e : Except ε α) (a : α) :
    e.toOption = some a ↔ e = .ok a := by
  cases e <;> simp [Except.toOption]

theorem runLines_toOption (M : FloatModel) :
    ∀ (ls : List String) (st : ParseState) (cur : Record M.F) (f : File M.F)
      (n m : Nat),
      (runLines M st cur f n ls).toOption = (runLines M st cur f m ls).toOption := by
  intro ls
  induction ls with
  | nil => intro st cur f n m; rw [runLines_nil, runLines_nil]
  | cons line rest ih =>
    intro st cur f n m
    cases st with
    | Count =>
      by_cases hline : line = ""
      · simp only [runLines, if_pos hline]; exact ih ..
      · simp only [runLines, if_neg hline]
        cases rustParseUsize line with
        | none => simp [Except.toOption]
        | some c => simp only; exact ih ..
    | Comment => simp only [runLines]; exact ih ..
    | Atoms =>
      cases hA : Atom.from_str M line with
      | error k => simp [runLines, hA, Except.toOption]
      | ok a =>
        simp only [runLines, hA]
        by_cases hlt :
            ({ cur with atoms := cur.atoms ++ [a] } : Record M.F).atoms.length <
              ({ cur with atoms := cur.atoms ++ [a] } : Record M.F).count
        · simp only [if_pos hlt]; exact ih ..
        · simp only [if_neg hlt]; exact ih ..

theorem runLines_skip_blanks (M : FloatModel) (cur : Record M.F) (f : File M.F)
    (k : Nat) :
    ∀ (n : Nat) (rest : List String),
      runLines M .Count cur f n (List.replicate k "" ++ rest) =
        runLines M .Count cur f (n + k) rest := by
  induction k with
  | zero => intro n rest; simp
  | succ k ih =>
    intro n rest
    have : (List.replicate (k + 1) "" : List String) ++ rest =
        "" :: (List.replicate k "" ++ rest) := by simp [List.replicate]
    rw [this]
    show runLines M .Count cur f n ("" :: (List.replicate k "" ++ rest)) = _
    rw [runLines, if_pos rfl, ih (n + 1) rest]
    have harith : n + 1 + k = n + (k + 1) := by omega
    rw [harith]

/-! ### Claims -/

/-- C2 (counterexample): the input whose count line declares 3 atoms but
which ends after a single atom line parses successfully to the empty
container — it does not fail, contradicting the claimed
`UnexpectedEndOfInput` behaviour (no such error kind even exists). -/
theorem c2_counterexample :
    File.try_from ratModel ["3", "c", "H 0 0 0"] = .ok ⟨[]⟩ := by decide

/-- C2 (amended): end of input in any parser state — in particular
mid-record — makes the loop stop and return the accumulated container
successfully; the partial record is silently dropped. -/
theorem c2_amended (M : FloatModel) (st : ParseState) (cur : Record M.F)
    (f : File M.F) (n : Nat) : runLines M st cur f n [] = .ok f := by
  cases st <;> rfl

/-- C4 (counterexample): count `0`, a comment, then the next record's
count line `2` does not produce a zero-atom record: the parser consumes
the line `2` as an atom line and fails with `MissingValue` at line 2. -/
theorem c4_counterexample :
    File.try_from ratModel ["0", "c", "2"] = .error ⟨.MissingValue, 2⟩ := by
  decide

/-- C4 (amended): after reading the comment of a record whose declared
count is 0 the parser does not finalize the record; it consumes one more
line as an atom line — failing if that line is not a valid atom, and
otherwise finalizing the record with count 0 and that single atom. -/
theorem c4_amended (M : FloatModel) (cur : Record M.F) (f : File M.F)
    (n : Nat) (cl l : String) (rest : List String) (h : cur.count = 0) :
    runLines M .Comment cur f n (cl :: l :: rest) =
      match Atom.from_str M l with
      | .error k => .error ⟨k, n + 1⟩
      | .ok a =>
          runLines M .Count Record.empty
            (f.push ⟨0, cl, cur.atoms ++ [a]⟩) (n + 2) rest := by
  obtain ⟨cnt, cm, ats⟩ := cur
  simp only [Record.mk.injEq] at h ⊢
  subst h
  rw [runLines]
  cases hA : Atom.from_str M l with
  | error k => simp [runLines, hA]
  | ok a => simp [runLines, hA]

/-- C4 (witness): the amended claim at a concrete zero-count record,
where the following line `2` fails as an atom line. -/
theorem c4_witness :
    runLines ratModel .Comment ⟨0, "", []⟩ ⟨[]⟩ 1 ["c", "2"] =
      .error ⟨.MissingValue, 2⟩ := by
  rw [c4_amended ratModel ⟨0, "", []⟩ ⟨[]⟩ 1 "c" "2" [] rfl]
  decide

/-- C5 (counterexample): a hand-built record with stored count 5 and no
atoms serializes with first line `"5"` — the stored count field — not
`"0"`, the length of its (empty) live atom sequence. -/
theorem c5_counterexample :
    (linesOfStr (Record.render ratModel ⟨5, "c", []⟩)).head? = some "5" ∧
      (linesOfStr (Record.render ratModel ⟨5, "c", []⟩)).head? ≠ some "0" ∧
      ((⟨5, "c", []⟩ : Record F64).atoms.length : Nat) = 0 := by
  refine ⟨by decide, by decide, by decide⟩

/-- C5 (amended): for every record — including hand-built ones whose
stored count differs from the live atom count — serialization writes the
stored `count` field, rendered in decimal, as the first line. -/
theorem c5_amended (M : FloatModel) (r : Record M.F) :
    (linesOfStr (Record.render M r)).head? =
      some (String.mk (natToDecimal r.count)) := by
  have hdata : (Record.render M r).data =
      natToDecimal r.count ++ '\n' ::
        (r.comment ++ "\n" ++
          concatStrings (r.atoms.map (fun a => Atom.render M a ++ "\n"))).data := by
    simp [Record.render, String.data_append]
  unfold linesOfStr
  rw [hdata, linesGo_append _ _ []
    (fun c hc => by
      have hdig := natToDecimal_digits r.count c hc
      intro heq
      subst heq
      exact absurd hdig (by decide))]
  simp only [List.map_cons, List.head?_cons]
  rw [stripCRrev_of_digits _ (natToDecimal_ne_nil _) (natToDecimal_digits _)]

/-- C9: in the count-expecting state, any run of blank lines is skipped
with no effect other than advancing the line counter; ending the input
there yields the accumulated container; and at top level, a file with
leading blank lines parses to a container exactly when the file without
them parses to the same container. -/
theorem c9_blank_skipping :
    (∀ (M : FloatModel) (cur : Record M.F) (f : File M.F) (n k : Nat)
       (rest : List String),
       runLines M .Count cur f n (List.replicate k "" ++ rest) =
         runLines M .Count cur f (n + k) rest) ∧
    (∀ (M : FloatModel) (cur : Record M.F) (f : File M.F) (n : Nat),
       runLines M .Count cur f n [] = .ok f) ∧
    (∀ (M : FloatModel) (k : Nat) (rest : List String) (c : File M.F),
       File.try_from M (List.replicate k "" ++ rest) = .ok c ↔
         File.try_from M rest = .ok c) := by
  refine ⟨fun M cur f n k rest => runLines_skip_blanks M cur f k n rest,
    fun M cur f n => runLines_nil M .Count cur f n,
    fun M k rest c => ?_⟩
  unfold File.try_from
  rw [runLines_skip_blanks M _ _ k 0 rest]
  rw [← except_toOption_eq_ok, ← except_toOption_eq_ok,
    runLines_toOption M rest .Count Record.empty ⟨[]⟩ (0 + k) 0]

/-- C10: in the count-expecting state a line that is whitespace-only but
not empty is not skipped: the parser tries to read it as the atom count
and fails with an integer-parse error at that line. -/
theorem c10_whitespace_count_line (M : FloatModel) (cur : Record M.F)
    (f : File M.F) (n : Nat) (s : String) (rest : List String)
    (h1 : s ≠ "") (h2 : ∀ c ∈ s.data, rustIsWhitespace c = true) :
    runLines M .Count cur f n (s :: rest) = .error ⟨.ParseIntError, n⟩ := by
  rw [runLines, if_neg h1]
  have hdata : s.data ≠ [] := by
    intro h
    exact h1 (by cases s; simp_all)
  have hcs : rustParseUsize s = none := by
    have hplus : s.data.head? ≠ some '+' := by
      cases hd : s.data with
      | nil => simp
      | cons c r =>
        have hc := h2 c (by rw [hd]; simp)
        simp only [List.head?_cons]
        intro h
        injection h with h
        subst h
        exact absurd hc (by decide)
    unfold rustParseUsize
    rw [if_neg hplus, if_neg hdata]
    have hall : s.data.all isAsciiDigit = false := by
      cases hd : s.data with
      | nil => exact absurd hd hdata
      | cons c r =>
        have hc := h2 c (by rw [hd]; simp)
        simp only [List.all_cons, Bool.and_eq_false_iff]
        left
        exact ws_not_digit hc
    rw [hall]
    simp
  rw [hcs]

/-- C10 (witness): a single-space line in the count state errors with
`ParseIntError` at its line. -/
theorem c10_witness :
    runLines ratModel .Count Record.empty ⟨[]⟩ 0 [" "] =
      .error ⟨.ParseIntError, 0⟩ :=
  c10_whitespace_count_line ratModel Record.empty ⟨[]⟩ 0 " " []
    (by decide) (by decide)

/-- Everything an error outcome of the parsing loop determines: the error
lies on a line of the input, later lines cannot change it, the error is
reproduced by truncating right after its line, and truncating right
before its line succeeds. -/
theorem runLines_error_split (M : FloatModel) :
    ∀ (ls : List String) (st : ParseState) (cur : Record M.F) (f : File M.F)
      (n : Nat) (e : ParseError),
      runLines M st cur f n ls = .error e →
      n ≤ e.line ∧ e.line < n + ls.length ∧
      (∀ ext, runLines M st cur f n (ls ++ ext) = .error e) ∧
      runLines M st cur f n (ls.take (e.line + 1 - n)) = .error e ∧
      ∃ c, runLines M st cur f n (ls.take (e.line - n)) = .ok c := by
  intro ls
  induction ls with
  | nil =>
    intro st cur f n e h
    rw [runLines_nil] at h
    exact absurd h (by simp)
  | cons line rest ih =>
    intro st cur f n e h
    cases st with
    | Count =>
      by_cases h0 : line = ""
      · rw [runLines, if_pos h0] at h
        obtain ⟨h1, h2, h3, h4, h5⟩ := ih .Count cur f (n + 1) e h
        refine ⟨by omega, by simp; omega, ?_, ?_, ?_⟩
        · intro ext
          rw [List.cons_append, runLines, if_pos h0]
          exact h3 ext
        · have ht : e.line + 1 - n = (e.line + 1 - (n + 1)) + 1 := by omega
          rw [ht, List.take_succ_cons, runLines, if_pos h0]
          exact h4
        · have ht : e.line - n = (e.line - (n + 1)) + 1 := by omega
          rw [ht, List.take_succ_cons]
          obtain ⟨c, hc⟩ := h5
          exact ⟨c, by rw [runLines, if_pos h0]; exact hc⟩
      · rw [runLines, if_neg h0] at h
        cases hp : rustParseUsize line with
        | none =>
          simp only [hp, Except.error.injEq] at h
          subst h
          refine ⟨by simp, by simp, ?_, ?_, ?_⟩
          · intro ext
            rw [List.cons_append, runLines, if_neg h0]
            simp [hp]
          · show runLines M .Count cur f n ((line :: rest).take (n + 1 - n)) = _
            have ht : n + 1 - n = 1 := by omega
            rw [ht, List.take_succ_cons, List.take_zero, runLines, if_neg h0]
            simp [hp]
          · show ∃ c, runLines M .Count cur f n ((line :: rest).take (n - n)) = .ok c
            have ht : n - n = 0 := by omega
            rw [ht, List.take_zero, runLines_nil]
            exact ⟨f, rfl⟩
        | some c =>
          simp only [hp] at h
          obtain ⟨h1, h2, h3, h4, h5⟩ := ih .Comment _ f (n + 1) e h
          refine ⟨by omega, by simp; omega, ?_, ?_, ?_⟩
          · intro ext
            rw [List.cons_append, runLines, if_neg h0]
            simp only [hp]
            exact h3 ext
          · have ht : e.line + 1 - n = (e.line + 1 - (n + 1)) + 1 := by omega
            rw [ht, List.take_succ_cons, runLines, if_neg h0]
            simp only [hp]
            exact h4
          · have ht : e.line - n = (e.line - (n + 1)) + 1 := by omega
            rw [ht, List.take_succ_cons]
            obtain ⟨c', hc⟩ := h5
            refine ⟨c', ?_⟩
            rw [runLines, if_neg h0]
            simp only [hp]
            exact hc
    | Comment =>
      rw [runLines] at h
      obtain ⟨h1, h2, h3, h4, h5⟩ := ih .Atoms _ f (n + 1) e h
      refine ⟨by omega, by simp; omega, ?_, ?_, ?_⟩
      · intro ext
        rw [List.cons_append, runLines]
        exact h3 ext
      · have ht : e.line + 1 - n = (e.line + 1 - (n + 1)) + 1 := by omega
        rw [ht, List.take_succ_cons, runLines]
        exact h4
      · have ht : e.line - n = (e.line - (n + 1)) + 1 := by omega
        rw [ht, List.take_succ_cons]
        obtain ⟨c', hc⟩ := h5
        exact ⟨c', by rw [runLines]; exact hc⟩
    | Atoms =>
      rw [runLines] at h
      cases hA : Atom.from_str M line with
      | error k =>
        simp only [hA, Except.error.injEq] at h
        subst h
        refine ⟨by simp, by simp, ?_, ?_, ?_⟩
        · intro ext
          rw [List.cons_append, runLines]
          simp [hA]
        · show runLines M .Atoms cur f n ((line :: rest).take (n + 1 - n)) = _
          have ht : n + 1 - n = 1 := by omega
          rw [ht, List.take_succ_cons, List.take_zero, runLines]
          simp [hA]
        · show ∃ c, runLines M .Atoms cur f n ((line :: rest).take (n - n)) = .ok c
          have ht : n - n = 0 := by omega
          rw [ht, List.take_zero, runLines_nil]
          exact ⟨f, rfl⟩
      | ok a =>
        simp only [hA] at h
        by_cases hlt :
            ({ cur with atoms := cur.atoms ++ [a] } : Record M.F).atoms.length <
              ({ cur with atoms := cur.atoms ++ [a] } : Record M.F).count
        · rw [if_pos hlt] at h
          obtain ⟨h1, h2, h3, h4, h5⟩ := ih .Atoms _ f (n + 1) e h
          refine ⟨by omega, by simp; omega, ?_, ?_, ?_⟩
          · intro ext
            rw [List.cons_append, runLines]
            simp only [hA]
            rw [if_pos hlt]
            exact h3 ext
          · have ht : e.line + 1 - n = (e.line + 1 - (n + 1)) + 1 := by omega
            rw [ht, List.take_succ_cons, runLines]
            simp only [hA]
            rw [if_pos hlt]
            exact h4
          · have ht : e.line - n = (e.line - (n + 1)) + 1 := by omega
            rw [ht, List.take_succ_cons]
            obtain ⟨c', hc⟩ := h5
            refine ⟨c', ?_⟩
            rw [runLines]
            simp only [hA]
            rw [if_pos hlt]
            exact hc
        · rw [if_neg hlt] at h
          obtain ⟨h1, h2, h3, h4, h5⟩ := ih .Count _ _ (n + 1) e h
          refine ⟨by omega, by simp; omega, ?_, ?_, ?_⟩
          · intro ext
            rw [List.cons_append, runLines]
            simp only [hA]
            rw [if_neg hlt]
            exact h3 ext
          · have ht : e.line + 1 - n = (e.line + 1 - (n + 1)) + 1 := by omega
            rw [ht, List.take_succ_cons, runLines]
            simp only [hA]
            rw [if_neg hlt]
            exact h4
          · have ht : e.line - n = (e.line - (n + 1)) + 1 := by omega
            rw [ht, List.take_succ_cons]
            obtain ⟨c', hc⟩ := h5
            refine ⟨c', ?_⟩
            rw [runLines]
            simp only [hA]
            rw [if_neg hlt]
            exact hc

/-- Length invariant of the parsing loop: every finalized record has
`atoms.length = max count 1` (exactly `count` atoms for a positive count,
and one atom for count 0, which can only be finalized after a push). -/
theorem runLines_len_inv (M : FloatModel) :
    ∀ (ls : List String) (st : ParseState) (cur : Record M.F) (f : File M.F)
      (n : Nat) (out : File M.F),
      runLines M st cur f n ls = .ok out →
      (∀ r ∈ f.records, r.atoms.length = max r.count 1) →
      (st = .Atoms → cur.atoms.length < max cur.count 1) →
      (st ≠ .Atoms → cur.atoms = []) →
      ∀ r ∈ out.records, r.atoms.length = max r.count 1 := by
  intro ls
  induction ls with
  | nil =>
    intro st cur f n out h hf _ _
    rw [runLines_nil] at h
    cases h
    exact hf
  | cons line rest ih =>
    intro st cur f n out h hf hAt hNotAt
    cases st with
    | Count =>
      by_cases h0 : line = ""
      · rw [runLines, if_pos h0] at h
        exact ih .Count cur f (n + 1) out h hf (by simp) hNotAt
      · rw [runLines, if_neg h0] at h
        cases hp : rustParseUsize line with
        | none => simp [hp] at h
        | some c =>
          simp only [hp] at h
          refine ih .Comment _ f (n + 1) out h hf (by simp) ?_
          intro _
          exact hNotAt (by simp)
    | Comment =>
      rw [runLines] at h
      refine ih .Atoms _ f (n + 1) out h hf ?_ (by simp)
      intro _
      have : cur.atoms = [] := hNotAt (by simp)
      simp [this]
    | Atoms =>
      rw [runLines] at h
      cases hA : Atom.from_str M line with
      | error k => simp [hA] at h
      | ok a =>
        simp only [hA] at h
        have hcur := hAt rfl
        by_cases hlt :
            ({ cur with atoms := cur.atoms ++ [a] } : Record M.F).atoms.length <
              ({ cur with atoms := cur.atoms ++ [a] } : Record M.F).count
        · rw [if_pos hlt] at h
          refine ih .Atoms _ f (n + 1) out h hf ?_ (by simp)
          intro _
          simp only [List.length_append, List.length_cons, List.length_nil] at hlt ⊢
          omega
        · rw [if_neg hlt] at h
          refine ih .Count Record.empty _ (n + 1) out h ?_ (by simp)
            (fun _ => rfl)
          intro r hr
          simp only [File.push, List.mem_append, List.mem_singleton] at hr
          rcases hr with hr | hr
          · exact hf r hr
          · subst hr
            simp only [List.length_append, List.length_cons, List.length_nil] at hlt hcur ⊢
            omega

/-- C3 (counterexample): the zero-count record input `["0", "c", "H 0 0 0"]`
parses successfully to a container whose single record has stored count 0
but one atom — the claimed `count = atoms.length` invariant fails. -/
theorem c3_counterexample :
    File.try_from ratModel ["0", "c", "H 0 0 0"] =
      .ok ⟨[⟨0, "c",
        [⟨"H", ⟨.finite ⟨0, 0⟩, .finite ⟨0, 0⟩, .finite ⟨0, 0⟩⟩⟩]⟩]⟩ ∧
    ¬ ∀ r ∈ (⟨[⟨0, "c",
        [⟨"H", ⟨.finite ⟨0, 0⟩, .finite ⟨0, 0⟩, .finite ⟨0, 0⟩⟩⟩]⟩]⟩ :
          File F64).records,
      r.count = r.atoms.length := by
  constructor
  · decide
  · intro hall
    have h1 := hall ⟨0, "c",
      [⟨"H", ⟨.finite ⟨0, 0⟩, .finite ⟨0, 0⟩, .finite ⟨0, 0⟩⟩⟩]⟩ (by simp)
    simp at h1

/-- C3 (amended): in a successfully parsed container, every record with a
nonzero declared count has exactly that many atoms, and every record with
declared count 0 has exactly one atom. -/
theorem c3_amended (M : FloatModel) (lines : List String) (out : File M.F)
    (h : File.try_from M lines = .ok out) :
    ∀ r ∈ out.records,
      (r.count ≠ 0 → r.atoms.length = r.count) ∧
      (r.count = 0 → r.atoms.length = 1) := by
  have hinv := runLines_len_inv M lines .Count Record.empty ⟨[]⟩ 0 out h
    (by simp) (by simp) (fun _ => rfl)
  intro r hr
  have := hinv r hr
  constructor <;> intro hc <;> omega

/-- C3 (witness): the amended invariant instantiated at the single record
of a concrete parse of count 2 with two atom lines. -/
theorem c3_witness :
    ((2 : Nat) ≠ 0 →
      ([⟨"H", ⟨.finite ⟨0, 0⟩, .finite ⟨0, 0⟩, .finite ⟨0, 0⟩⟩⟩,
        ⟨"O", ⟨.finite ⟨1, 0⟩, .finite ⟨0, 0⟩, .finite ⟨0, 0⟩⟩⟩] :
          List (Atom F64)).length = 2) ∧
    ((2 : Nat) = 0 →
      ([⟨"H", ⟨.finite ⟨0, 0⟩, .finite ⟨0, 0⟩, .finite ⟨0, 0⟩⟩⟩,
        ⟨"O", ⟨.finite ⟨1, 0⟩, .finite ⟨0, 0⟩, .finite ⟨0, 0⟩⟩⟩] :
          List (Atom F64)).length = 1) :=
  c3_amended ratModel ["2", "c", "H 0 0 0", "O 1 0 0"]
    ⟨[⟨2, "c", [⟨"H", ⟨.finite ⟨0, 0⟩, .finite ⟨0, 0⟩, .finite ⟨0, 0⟩⟩⟩,
      ⟨"O", ⟨.finite ⟨1, 0⟩, .finite ⟨0, 0⟩, .finite ⟨0, 0⟩⟩⟩]⟩]⟩ (by decide)
    ⟨2, "c", [⟨"H", ⟨.finite ⟨0, 0⟩, .finite ⟨0, 0⟩, .finite ⟨0, 0⟩⟩⟩,
      ⟨"O", ⟨.finite ⟨1, 0⟩, .finite ⟨0, 0⟩, .finite ⟨0, 0⟩⟩⟩]⟩ (by simp)

/-- C6: a failing parse determines its error from the prefix of the input
ending at the reported (0-based) line: the reported line is within the
input, truncating right after it reproduces the same error, appending
lines after the input cannot change it, and truncating right before the
reported line parses successfully — so the parse fails fast at the first
error and reports that line's 0-based index. -/
theorem c6_fail_fast (M : FloatModel) (lines : List String) (e : ParseError)
    (h : File.try_from M lines = .error e) :
    e.line < lines.length ∧
    File.try_from M (lines.take (e.line + 1)) = .error e ∧
    (∀ ext, File.try_from M (lines ++ ext) = .error e) ∧
    ∃ c, File.try_from M (lines.take e.line) = .ok c := by
  obtain ⟨h1, h2, h3, h4, h5⟩ :=
    runLines_error_split M lines .Count Record.empty ⟨[]⟩ 0 e h
  refine ⟨by omega, ?_, h3, ?_⟩
  · have ht : e.line + 1 - 0 = e.line + 1 := by omega
    rw [ht] at h4
    exact h4
  · have ht : e.line - 0 = e.line := by omega
    rw [ht] at h5
    exact h5

/-- C6 (witness): the fail-fast theorem applied to a concrete failing
input whose second line is an invalid atom line. -/
theorem c6_witness :
    (2 : Nat) < (["2", "c", "bad", "H 0 0 0"] : List String).length ∧
    File.try_from ratModel ["2", "c", "bad"] = .error ⟨.MissingValue, 2⟩ ∧
    (∀ ext, File.try_from ratModel (["2", "c", "bad", "H 0 0 0"] ++ ext) =
      .error ⟨.MissingValue, 2⟩) ∧
    ∃ c, File.try_from ratModel ["2", "c"] = .ok c := by
  obtain ⟨h1, h2, h3, h4⟩ :=
    c6_fail_fast ratModel ["2", "c", "bad", "H 0 0 0"] ⟨.MissingValue, 2⟩
      (by decide)
  exact ⟨h1, h2, h3, h4⟩

/-- C7: the tab-separated atom line `C	2.2453	4.56	5` parses to the atom
with label `C` and position `(2.2453, 4.56, 5)` (the exact decimals, whose
rational denotations are spelled out), and the atom parser reads only the
first four whitespace-separated tokens — every token after the fourth is
ignored. -/
theorem c7_atom_parse :
    Atom.from_str ratModel "C\t2.2453\t4.56\t5" =
      .ok ⟨"C", ⟨.finite ⟨22453, -4⟩, .finite ⟨456, -2⟩, .finite ⟨5, 0⟩⟩⟩ ∧
    Dec.toRat ⟨22453, -4⟩ = 22453 / 10000 ∧
    Dec.toRat ⟨456, -2⟩ = 456 / 100 ∧
    Dec.toRat ⟨5, 0⟩ = 5 ∧
    ∀ (M : FloatModel) (toks : List String),
      Atom.fromTokens M toks = Atom.fromTokens M (toks.take 4) := by
  refine ⟨by decide, ?_, ?_, ?_, ?_⟩
  · simp [Dec.toRat]
    norm_num
  · simp [Dec.toRat]
    norm_num
  · simp [Dec.toRat]
  · intro M toks
    match toks with
    | [] => rfl
    | [_] => rfl
    | [_, _] => rfl
    | [_, _, _] => rfl
    | _ :: _ :: _ :: _ :: _ => rfl

/-- C8 (counterexample): the two-token atom line `C x` has fewer than four
whitespace-separated tokens yet fails with `ParseFloatError`, not
`MissingValue` — the second token is reached and parsed (and rejected)
before the missing third token is noticed. -/
theorem c8_counterexample :
    (splitWhitespace "C x").length < 4 ∧
    Atom.from_str ratModel "C x" = .error .ParseFloatError := by
  exact ⟨by decide, by decide⟩

/-- C8 (amended): the concrete line with leading whitespace and three
number tokens fails with `MissingValue`; and in general an atom line with
fewer than four whitespace-separated tokens always fails — with
`MissingValue` or, when a present coordinate token is not a valid float,
with `ParseFloatError` — never succeeding. -/
theorem c8_amended :
    Atom.from_str ratModel "\t2.2453\t4.56\t5" = .error .MissingValue ∧
    ∀ (M : FloatModel) (s : String), (splitWhitespace s).length < 4 →
      Atom.from_str M s = .error .MissingValue ∨
        Atom.from_str M s = .error .ParseFloatError := by
  refine ⟨by decide, ?_⟩
  intro M s hlen
  unfold Atom.from_str
  rcases hts : splitWhitespace s with _ | ⟨l, _ | ⟨t1, _ | ⟨t2, _ | ⟨t3, rest⟩⟩⟩⟩
  · left; rfl
  · left; rfl
  · cases hx : M.fromStr t1 with
    | none => right; simp [Atom.fromTokens, hx]
    | some x => left; simp [Atom.fromTokens, hx]
  · cases hx : M.fromStr t1 with
    | none => right; simp [Atom.fromTokens, hx]
    | some x =>
      cases hy : M.fromStr t2 with
      | none => right; simp [Atom.fromTokens, hx, hy]
      | some y => left; simp [Atom.fromTokens, hx, hy]
  · rw [hts] at hlen
    simp at hlen
    omega

/-- C8 (witness): the amended statement at the one-token line `H`. -/
theorem c8_witness :
    Atom.from_str ratModel "H" = .error .MissingValue ∨
      Atom.from_str ratModel "H" = .error .ParseFloatError :=
  c8_amended.2 ratModel "H" (by decide)

/-! ### Round-trip machinery: decimal rendering re-parses -/

theorem string_mk_data (s : String) : String.mk s.data = s := rfl

theorem natToDecimalGo_append (fuel : Nat) :
    ∀ (n : Nat) (acc : List Char),
      natToDecimalGo fuel n acc = natToDecimalGo fuel n [] ++ acc := by
  induction fuel with
  | zero => intro n acc; simp [natToDecimalGo]
  | succ fuel ih =>
    intro n acc
    by_cases hn : n = 0
    · simp [natToDecimalGo, hn]
    · rw [natToDecimalGo, if_neg hn, natToDecimalGo, if_neg hn]
      rw [ih (n / 10) (Char.ofNat (48 + n % 10) :: acc),
        ih (n / 10) [Char.ofNat (48 + n % 10)]]
      simp

theorem digitsToNat_append_digit (ds : List Char) (c : Char) :
    digitsToNat (ds ++ [c]) = 10 * digitsToNat ds + (c.toNat - 48) := by
  unfold digitsToNat
  rw [List.foldl_append]
  simp

theorem toNat_ofNat_digit (k : Nat) (hk : k < 10) :
    (Char.ofNat (48 + k)).toNat = 48 + k := by
  interval_cases k <;> decide

theorem natToDecimalGo_value (fuel : Nat) :
    ∀ n : Nat, n ≤ fuel → digitsToNat (natToDecimalGo fuel n []) = n := by
  induction fuel with
  | zero =>
    intro n hn
    interval_cases n
    simp [natToDecimalGo, digitsToNat]
  | succ fuel ih =>
    intro n hn
    by_cases h0 : n = 0
    · simp [natToDecimalGo, h0, digitsToNat]
    · rw [natToDecimalGo, if_neg h0, natToDecimalGo_append,
        digitsToNat_append_digit, ih (n / 10) (by omega),
        toNat_ofNat_digit _ (Nat.mod_lt _ (by omega))]
      omega

theorem natToDecimal_value (n : Nat) : digitsToNat (natToDecimal n) = n := by
  by_cases h0 : n = 0
  · subst h0; decide
  · rw [natToDecimal, if_neg h0]
    exact natToDecimalGo_value n n (Nat.le_refl n)

theorem rustParseUsize_natToDecimal (n : Nat) (hn : n < 2 ^ 64) :
    rustParseUsize (String.mk (natToDecimal n)) = some n := by
  have hds := natToDecimal_digits n
  have hne := natToDecimal_ne_nil n
  have hplus : (String.mk (natToDecimal n)).data.head? ≠ some '+' := by
    show (natToDecimal n).head? ≠ some '+'
    cases hd : natToDecimal n with
    | nil => simp
    | cons c cs =>
      have hcdig : isAsciiDigit c = true := hds c (by rw [hd]; simp)
      simp only [List.head?_cons]
      intro h
      injection h with h
      subst h
      exact absurd hcdig (by decide)
  have hdata : (String.mk (natToDecimal n)).data ≠ [] := hne
  unfold rustParseUsize
  rw [if_neg hplus, if_neg hdata]
  have hall : (String.mk (natToDecimal n)).data.all isAsciiDigit = true := by
    rw [List.all_eq_true]
    exact hds
  rw [if_pos hall]
  show (if digitsToNat (natToDecimal n) < 2 ^ 64 then
    some (digitsToNat (natToDecimal n)) else none) = some n
  rw [natToDecimal_value]
  rw [if_pos hn]

theorem rustParseUsize_lt (s : String) (c : Nat)
    (h : rustParseUsize s = some c) : c < 2 ^ 64 := by
  unfold rustParseUsize at h
  split_ifs at h <;> simp_all <;> omega

/-! ### Round-trip machinery: the tokenizer on rendered atom lines -/

theorem tokAux_skip_run (t : List Char) :
    ∀ (cs acc : List Char), (∀ c ∈ t, rustIsWhitespace c = false) →
      tokAux (t ++ cs) acc = tokAux cs (t.reverse ++ acc) := by
  induction t with
  | nil => intro cs acc _; simp
  | cons c t ih =>
    intro cs acc ht
    have hc : rustIsWhitespace c = false := ht c (by simp)
    simp only [List.cons_append, tokAux]
    rw [if_neg (by simp [hc])]
    simp only [List.append_eq]
    rw [ih cs (c :: acc) (fun d hd => ht d (by simp [hd]))]
    simp

theorem tokAux_ws_sep (c : Char) (cs acc : List Char)
    (hws : rustIsWhitespace c = true) (hacc : acc ≠ []) :
    tokAux (c :: cs) acc = acc.reverse :: tokAux cs [] := by
  rw [tokAux, if_pos hws, if_neg hacc]

theorem tokAux_final (acc : List Char) (hacc : acc ≠ []) :
    tokAux [] acc = [acc.reverse] := by
  rw [tokAux, if_neg hacc]

theorem tokAux_tokens (cs : List Char) :
    ∀ acc : List Char, (∀ c ∈ acc, rustIsWhitespace c = false) →
      ∀ t ∈ tokAux cs acc, t ≠ [] ∧ ∀ c ∈ t, rustIsWhitespace c = false := by
  induction cs with
  | nil =>
    intro acc hacc t ht
    by_cases h : acc = []
    · simp [tokAux, h] at ht
    · rw [tokAux, if_neg h] at ht
      simp only [List.mem_singleton] at ht
      subst ht
      refine ⟨by simpa using h, fun c hc => hacc c (by simpa using hc)⟩
  | cons c cs ih =>
    intro acc hacc t ht
    rw [tokAux] at ht
    by_cases hws : rustIsWhitespace c = true
    · rw [if_pos hws] at ht
      by_cases h : acc = []
      · rw [if_pos h] at ht
        exact ih [] (by simp) t ht
      · rw [if_neg h] at ht
        rcases List.mem_cons.mp ht with ht | ht
        · subst ht
          exact ⟨by simpa using h, fun d hd => hacc d (by simpa using hd)⟩
        · exact ih [] (by simp) t ht
    · rw [if_neg hws] at ht
      refine ih (c :: acc) ?_ t ht
      intro d hd
      rcases List.mem_cons.mp hd with hd | hd
      · subst hd; simpa using hws
      · exact hacc d hd

theorem splitWhitespace_tokens (s : String) :
    ∀ t ∈ splitWhitespace s,
      t.data ≠ [] ∧ ∀ c ∈ t.data, rustIsWhitespace c = false := by
  intro t ht
  unfold splitWhitespace at ht
  rcases List.mem_map.mp ht with ⟨tt, htt, rfl⟩
  exact tokAux_tokens s.data [] (by simp) tt htt

theorem data_atomRender (M : FloatModel) (a : Atom M.F) :
    (Atom.render M a).data =
      a.label.data ++ '\t' :: ((M.display a.position.x).data ++
        '\t' :: ((M.display a.position.y).data ++
          '\t' :: (M.display a.position.z).data)) := by
  simp [Atom.render, Position.render, String.data_append]

theorem splitWhitespace_atomRender (M : FloatModel) (a : Atom M.F)
    (hl : a.label.data ≠ [] ∧ ∀ c ∈ a.label.data, rustIsWhitespace c = false)
    (hx : (M.display a.position.x).data ≠ [] ∧
      ∀ c ∈ (M.display a.position.x).data, rustIsWhitespace c = false)
    (hy : (M.display a.position.y).data ≠ [] ∧
      ∀ c ∈ (M.display a.position.y).data, rustIsWhitespace c = false)
    (hz : (M.display a.position.z).data ≠ [] ∧
      ∀ c ∈ (M.display a.position.z).data, rustIsWhitespace c = false) :
    splitWhitespace (Atom.render M a) =
      [a.label, M.display a.position.x, M.display a.position.y,
        M.display a.position.z] := by
  unfold splitWhitespace
  rw [data_atomRender]
  rw [tokAux_skip_run a.label.data _ [] hl.2]
  rw [tokAux_ws_sep '\t' _ _ (by decide) (by simpa using hl.1)]
  rw [tokAux_skip_run (M.display a.position.x).data _ [] hx.2]
  rw [tokAux_ws_sep '\t' _ _ (by decide) (by simpa using hx.1)]
  rw [tokAux_skip_run (M.display a.position.y).data _ [] hy.2]
  rw [tokAux_ws_sep '\t' _ _ (by decide) (by simpa using hy.1)]
  rw [← List.append_nil (M.display a.position.z).data]
  rw [tokAux_skip_run (M.display a.position.z).data [] [] hz.2]
  rw [tokAux_final _ (by simpa using hz.1)]
  simp [string_mk_data]

theorem atomRender_from_str (M : FloatModel)
    (hM : ∀ x, M.fromStr (M.display x) = some x) (a : Atom M.F)
    (hl : a.label.data ≠ [] ∧ ∀ c ∈ a.label.data, rustIsWhitespace c = false)
    (hdisp : ∀ x, (M.display x).data ≠ [] ∧
      ∀ c ∈ (M.display x).data, rustIsWhitespace c = false) :
    Atom.from_str M (Atom.render M a) = .ok a := by
  unfold Atom.from_str
  rw [splitWhitespace_atomRender M a hl (hdisp _) (hdisp _) (hdisp _)]
  obtain ⟨l, x, y, z⟩ := a
  simp [Atom.fromTokens, hM]

/-! ### Round-trip machinery: line structure of the rendered file -/

theorem mem_of_reverse_head (l : List Char) (ch : Char)
    (h : l.reverse.head? = some ch) : ch ∈ l := by
  have hm : ch ∈ l.reverse := by
    cases hrev : l.reverse with
    | nil => rw [hrev] at h; simp at h
    | cons d t =>
      rw [hrev] at h
      simp only [List.head?_cons] at h
      injection h with h
      subst h
      exact List.mem_cons_self _ _
  simpa using hm

theorem stripCRrev_eq (l : List Char)
    (h : ∀ ch, l.reverse.head? = some ch → ch ≠ '\r') :
    stripCRrev (l.reverse ++ []) = l := by
  rw [List.append_nil]
  cases hrev : l.reverse with
  | nil =>
    have hl : l = [] := List.reverse_eq_nil_iff.mp hrev
    subst hl
    rfl
  | cons d t =>
    have hd : d ≠ '\r' := h d (by rw [hrev]; rfl)
    unfold stripCRrev
    rw [if_neg (by simp [hd] : ¬((d :: t : List Char).head? = some '\r'))]
    rw [← hrev, List.reverse_reverse]

theorem atomRender_chars (M : FloatModel) (a : Atom M.F)
    (hl : ∀ ch ∈ a.label.data, rustIsWhitespace ch = false)
    (hdisp : ∀ x, ∀ ch ∈ (M.display x).data, rustIsWhitespace ch = false) :
    ∀ ch ∈ (Atom.render M a).data,
      ch = '\t' ∨ rustIsWhitespace ch = false := by
  rw [data_atomRender]
  intro ch hch
  simp only [List.mem_append, List.mem_cons] at hch
  rcases hch with hch | hch | hch | hch | hch | hch | hch
  · exact Or.inr (hl ch hch)
  · exact Or.inl hch
  · exact Or.inr (hdisp _ ch hch)
  · exact Or.inl hch
  · exact Or.inr (hdisp _ ch hch)
  · exact Or.inl hch
  · exact Or.inr (hdisp _ ch hch)

theorem atomRender_no_nl (M : FloatModel) (a : Atom M.F)
    (hl : ∀ ch ∈ a.label.data, rustIsWhitespace ch = false)
    (hdisp : ∀ x, ∀ ch ∈ (M.display x).data, rustIsWhitespace ch = false) :
    '\n' ∉ (Atom.render M a).data := by
  intro hmem
  rcases atomRender_chars M a hl hdisp '\n' hmem with h | h
  · exact absurd h (by decide)
  · exact absurd h (by decide)

theorem atomRender_no_tail_cr (M : FloatModel) (a : Atom M.F)
    (hl : ∀ ch ∈ a.label.data, rustIsWhitespace ch = false)
    (hdisp : ∀ x, ∀ ch ∈ (M.display x).data, rustIsWhitespace ch = false) :
    ∀ ch, (Atom.render M a).data.reverse.head? = some ch → ch ≠ '\r' := by
  intro ch hch hcr
  subst hcr
  have hmem := mem_of_reverse_head _ _ hch
  rcases atomRender_chars M a hl hdisp '\r' hmem with h | h
  · exact absurd h (by decide)
  · exact absurd h (by decide)

theorem linesGo_concat_atoms (M : FloatModel) :
    ∀ (ats : List (Atom M.F)) (tail : List Char),
      (∀ a ∈ ats, '\n' ∉ (Atom.render M a).data ∧
        ∀ ch, (Atom.render M a).data.reverse.head? = some ch → ch ≠ '\r') →
      linesGo ((concatStrings
          (ats.map (fun a => Atom.render M a ++ "\n"))).data ++ tail) [] =
        ats.map (fun a => (Atom.render M a).data) ++ linesGo tail [] := by
  intro ats
  induction ats with
  | nil => intro tail _; simp [concatStrings]
  | cons a ats ih =>
    intro tail hats
    have ha := hats a (by simp)
    have hdata : (concatStrings
        ((a :: ats).map (fun a => Atom.render M a ++ "\n"))).data ++ tail =
        (Atom.render M a).data ++ '\n' ::
          ((concatStrings (ats.map (fun a => Atom.render M a ++ "\n"))).data ++
            tail) := by
      simp [concatStrings, String.data_append]
    rw [hdata, linesGo_append _ _ [] (fun ch hch heq => by
      subst heq; exact ha.1 hch)]
    rw [stripCRrev_eq _ ha.2]
    rw [ih tail (fun b hb => hats b (by simp [hb]))]
    simp

theorem linesGo_newline (tail : List Char) :
    linesGo ('\n' :: tail) [] = [] :: linesGo tail [] := by
  rw [linesGo, if_pos rfl]
  rfl

theorem linesGo_record (M : FloatModel) (r : Record M.F) (tail : List Char)
    (hcm : '\n' ∉ r.comment.data)
    (hcr : ∀ ch, r.comment.data.reverse.head? = some ch → ch ≠ '\r')
    (hats : ∀ a ∈ r.atoms, '\n' ∉ (Atom.render M a).data ∧
      ∀ ch, (Atom.render M a).data.reverse.head? = some ch → ch ≠ '\r') :
    linesGo ((Record.render M r ++ "\n").data ++ tail) [] =
      (natToDecimal r.count :: r.comment.data ::
        (r.atoms.map (fun a => (Atom.render M a).data) ++ [[]])) ++
        linesGo tail [] := by
  have hdata : (Record.render M r ++ "\n").data ++ tail =
      natToDecimal r.count ++ '\n' :: (r.comment.data ++ '\n' ::
        ((concatStrings (r.atoms.map (fun a => Atom.render M a ++ "\n"))).data ++
          '\n' :: tail)) := by
    simp [Record.render, String.data_append]
  rw [hdata]
  rw [linesGo_append _ _ [] (fun ch hch heq => by
    subst heq
    exact absurd (natToDecimal_digits r.count '\n' hch) (by decide))]
  rw [stripCRrev_eq _ (fun ch hch hcr2 => by
    subst hcr2
    exact absurd (natToDecimal_digits r.count '\r' (mem_of_reverse_head _ _ hch))
      (by decide))]
  rw [linesGo_append _ _ [] (fun ch hch heq => by subst heq; exact hcm hch)]
  rw [stripCRrev_eq _ hcr]
  rw [linesGo_concat_atoms M r.atoms ('\n' :: tail) hats]
  rw [linesGo_newline]
  simp

theorem linesGo_file (M : FloatModel) :
    ∀ (rs : List (Record M.F)),
      (∀ r ∈ rs, '\n' ∉ r.comment.data ∧
        (∀ ch, r.comment.data.reverse.head? = some ch → ch ≠ '\r') ∧
        ∀ a ∈ r.atoms, '\n' ∉ (Atom.render M a).data ∧
          ∀ ch, (Atom.render M a).data.reverse.head? = some ch → ch ≠ '\r') →
      linesGo ((concatStrings
          (rs.map (fun r => Record.render M r ++ "\n"))).data ++ []) [] =
        (rs.map (fun r => natToDecimal r.count :: r.comment.data ::
          (r.atoms.map (fun a => (Atom.render M a).data) ++ [[]]))).flatten := by
  intro rs
  induction rs with
  | nil => intro _; simp [concatStrings, linesGo]
  | cons r rs ih =>
    intro hrs
    have hr := hrs r (by simp)
    have hdata : (concatStrings
        ((r :: rs).map (fun r => Record.render M r ++ "\n"))).data ++ [] =
        (Record.render M r ++ "\n").data ++
          ((concatStrings (rs.map (fun r => Record.render M r ++ "\n"))).data ++
            []) := by
      simp [concatStrings, String.data_append]
    rw [hdata]
    rw [linesGo_record M r _ hr.1 hr.2.1 hr.2.2]
    rw [ih (fun r' hr' => hrs r' (by simp [hr']))]
    simp

theorem linesOfStr_fileRender (M : FloatModel) (f : File M.F)
    (hrs : ∀ r ∈ f.records, '\n' ∉ r.comment.data ∧
      (∀ ch, r.comment.data.reverse.head? = some ch → ch ≠ '\r') ∧
      ∀ a ∈ r.atoms, '\n' ∉ (Atom.render M a).data ∧
        ∀ ch, (Atom.render M a).data.reverse.head? = some ch → ch ≠ '\r') :
    linesOfStr (File.render M f) = (f.records.map (recordLines M)).flatten := by
  unfold linesOfStr File.render
  rw [← List.append_nil (concatStrings
    (f.records.map (fun r => Record.render M r ++ "\n"))).data]
  rw [linesGo_file M f.records hrs]
  rw [List.map_flatten]
  congr 1
  rw [List.map_map]
  refine List.map_congr_left ?_
  intro r _
  simp [recordLines, Function.comp, string_mk_data, List.map_map]

/-! ### Round-trip machinery: well-formedness of parsed containers -/

theorem fromTokens_ok_label (M : FloatModel) :
    ∀ (toks : List String) (a : Atom M.F),
      Atom.fromTokens M toks = .ok a → a.label ∈ toks := by
  intro toks a h
  rcases toks with _ | ⟨l, _ | ⟨tx, rest⟩⟩
  · simp [Atom.fromTokens] at h
  · simp [Atom.fromTokens] at h
  · cases hx : M.fromStr tx with
    | none => simp [Atom.fromTokens, hx] at h
    | some x =>
      rcases rest with _ | ⟨ty, rest2⟩
      · simp [Atom.fromTokens, hx] at h
      · cases hy : M.fromStr ty with
        | none => simp [Atom.fromTokens, hx, hy] at h
        | some y =>
          rcases rest2 with _ | ⟨tz, rest3⟩
          · simp [Atom.fromTokens, hx, hy] at h
          · cases hz : M.fromStr tz with
            | none => simp [Atom.fromTokens, hx, hy, hz] at h
            | some z =>
              simp only [Atom.fromTokens, hx, hy, hz, Except.ok.injEq] at h
              subst h
              simp

theorem from_str_label (M : FloatModel) (line : String) (a : Atom M.F)
    (h : Atom.from_str M line = .ok a) :
    a.label.data ≠ [] ∧ ∀ ch ∈ a.label.data, rustIsWhitespace ch = false := by
  unfold Atom.from_str at h
  exact splitWhitespace_tokens line a.label (fromTokens_ok_label M _ a h)

theorem runLines_wf_inv (M : FloatModel) :
    ∀ (ls : List String) (st : ParseState) (cur : Record M.F) (f : File M.F)
      (n : Nat) (out : File M.F),
      runLines M st cur f n ls = .ok out →
      (∀ l ∈ ls, '\n' ∉ l.data) →
      (∀ r ∈ f.records, r.count < 2 ^ 64 ∧ '\n' ∉ r.comment.data ∧
        ∀ a ∈ r.atoms, a.label.data ≠ [] ∧
          ∀ ch ∈ a.label.data, rustIsWhitespace ch = false) →
      cur.count < 2 ^ 64 →
      '\n' ∉ cur.comment.data →
      (∀ a ∈ cur.atoms, a.label.data ≠ [] ∧
        ∀ ch ∈ a.label.data, rustIsWhitespace ch = false) →
      ∀ r ∈ out.records, r.count < 2 ^ 64 ∧ '\n' ∉ r.comment.data ∧
        ∀ a ∈ r.atoms, a.label.data ≠ [] ∧
          ∀ ch ∈ a.label.data, rustIsWhitespace ch = false := by
  intro ls
  induction ls with
  | nil =>
    intro st cur f n out h _ hf _ _ _
    rw [runLines_nil] at h
    cases h
    exact hf
  | cons line rest ih =>
    intro st cur f n out h hls hf hcount hcm hats
    have hls' : ∀ l ∈ rest, '\n' ∉ l.data := fun l hl => hls l (by simp [hl])
    cases st with
    | Count =>
      by_cases h0 : line = ""
      · rw [runLines, if_pos h0] at h
        exact ih .Count cur f (n + 1) out h hls' hf hcount hcm hats
      · rw [runLines, if_neg h0] at h
        cases hp : rustParseUsize line with
        | none => simp [hp] at h
        | some cnt =>
          simp only [hp] at h
          exact ih .Comment _ f (n + 1) out h hls' hf
            (rustParseUsize_lt line cnt hp) hcm hats
    | Comment =>
      rw [runLines] at h
      exact ih .Atoms _ f (n + 1) out h hls' hf hcount
        (hls line (by simp)) hats
    | Atoms =>
      rw [runLines] at h
      cases hA : Atom.from_str M line with
      | error k => simp [hA] at h
      | ok a =>
        simp only [hA] at h
        have hlab := from_str_label M line a hA
        have hats' : ∀ b ∈ cur.atoms ++ [a], b.label.data ≠ [] ∧
            ∀ ch ∈ b.label.data, rustIsWhitespace ch = false := by
          intro b hb
          rcases List.mem_append.mp hb with hb | hb
          · exact hats b hb
          · simp only [List.mem_singleton] at hb
            subst hb
            exact hlab
        by_cases hlt :
            ({ cur with atoms := cur.atoms ++ [a] } : Record M.F).atoms.length <
              ({ cur with atoms := cur.atoms ++ [a] } : Record M.F).count
        · rw [if_pos hlt] at h
          exact ih .Atoms _ f (n + 1) out h hls' hf hcount hcm hats'
        · rw [if_neg hlt] at h
          refine ih .Count Record.empty _ (n + 1) out h hls' ?_
            (by show (0 : Nat) < 2 ^ 64; norm_num)
            (by show '\n' ∉ ("" : String).data; decide)
            (by simp [Record.empty])
          intro r hr
          rcases List.mem_append.mp hr with hr | hr
          · exact hf r hr
          · simp only [List.mem_singleton] at hr
            subst hr
            exact ⟨hcount, hcm, hats'⟩

/-! ### Round-trip machinery: re-running the parser on rendered lines -/

theorem runLines_atoms (M : FloatModel)
    (hM1 : ∀ x, M.fromStr (M.display x) = some x)
    (hM2 : ∀ x, (M.display x).data ≠ [] ∧
      ∀ ch ∈ (M.display x).data, rustIsWhitespace ch = false) :
    ∀ (ats done : List (Atom M.F)) (cnt : Nat) (cm : String) (g : File M.F)
      (n : Nat) (more : List String),
      ats ≠ [] →
      done.length + ats.length = max cnt 1 →
      (∀ a ∈ ats, a.label.data ≠ [] ∧
        ∀ ch ∈ a.label.data, rustIsWhitespace ch = false) →
      runLines M .Atoms ⟨cnt, cm, done⟩ g n (ats.map (Atom.render M) ++ more) =
        runLines M .Count Record.empty (g.push ⟨cnt, cm, done ++ ats⟩)
          (n + ats.length) more := by
  intro ats
  induction ats with
  | nil => intro done cnt cm g n more hne _ _; exact absurd rfl hne
  | cons a ats ih =>
    intro done cnt cm g n more _ hlen hlabs
    have hstep : Atom.from_str M (Atom.render M a) = .ok a :=
      atomRender_from_str M hM1 a (hlabs a (by simp)) hM2
    simp only [List.map_cons, List.cons_append]
    rw [runLines]
    simp only [hstep]
    rcases hats : ats with _ | ⟨b, ats'⟩
    · subst hats
      have hnlt : ¬ (({ count := cnt, comment := cm, atoms := done ++ [a] } :
          Record M.F).atoms.length <
            ({ count := cnt, comment := cm, atoms := done ++ [a] } :
              Record M.F).count) := by
        simp only [List.length_append, List.length_cons, List.length_nil]
        simp at hlen
        omega
      rw [if_neg hnlt]
      simp
    · rw [← hats]
      have hlt : (({ count := cnt, comment := cm, atoms := done ++ [a] } :
          Record M.F).atoms.length <
            ({ count := cnt, comment := cm, atoms := done ++ [a] } :
              Record M.F).count) := by
        simp only [List.length_append, List.length_cons, List.length_nil]
        have hge : ats.length ≥ 1 := by rw [hats]; simp
        simp at hlen
        omega
      rw [if_pos hlt]
      have hrec := ih (done ++ [a]) cnt cm g (n + 1) more
        (by rw [hats]; simp)
        (by simp at hlen ⊢; omega)
        (fun b hb => hlabs b (by simp [hb]))
      rw [hrec]
      have harr : (done ++ [a]) ++ ats = done ++ a :: ats := by simp
      have harith : n + 1 + ats.length = n + (a :: ats).length := by
        simp
        omega
      rw [harr, harith]

theorem runLines_record (M : FloatModel)
    (hM1 : ∀ x, M.fromStr (M.display x) = some x)
    (hM2 : ∀ x, (M.display x).data ≠ [] ∧
      ∀ ch ∈ (M.display x).data, rustIsWhitespace ch = false)
    (r : Record M.F) (g : File M.F) (n : Nat) (more : List String)
    (hcnt : r.count < 2 ^ 64)
    (hlen : r.atoms.length = max r.count 1)
    (hlabs : ∀ a ∈ r.atoms, a.label.data ≠ [] ∧
      ∀ ch ∈ a.label.data, rustIsWhitespace ch = false) :
    runLines M .Count Record.empty g n (recordLines M r ++ more) =
      runLines M .Count Record.empty (g.push r)
        (n + r.atoms.length + 3) more := by
  have hne : (String.mk (natToDecimal r.count) : String) ≠ "" := by
    intro h
    exact natToDecimal_ne_nil r.count (congrArg String.data h)
  have hatsne : r.atoms ≠ [] := by
    intro h
    rw [h] at hlen
    simp at hlen
    omega
  simp only [recordLines, List.cons_append, List.append_assoc,
    List.singleton_append, List.nil_append]
  rw [runLines, if_neg hne]
  simp only [rustParseUsize_natToDecimal r.count hcnt]
  rw [runLines]
  have hcur : ({ { Record.empty with count := r.count } with
      comment := r.comment } : Record M.F) =
      ⟨r.count, r.comment, []⟩ := rfl
  rw [hcur]
  rw [runLines_atoms M hM1 hM2 r.atoms [] r.count r.comment g (n + 1 + 1)
    ("" :: more) hatsne (by simpa using hlen) hlabs]
  have heta : (⟨r.count, r.comment, [] ++ r.atoms⟩ : Record M.F) = r := by
    simp
  rw [heta]
  rw [runLines, if_pos rfl]
  have harith : n + 1 + 1 + r.atoms.length + 1 = n + r.atoms.length + 3 := by
    omega
  rw [harith]

theorem runLines_all_records (M : FloatModel)
    (hM1 : ∀ x, M.fromStr (M.display x) = some x)
    (hM2 : ∀ x, (M.display x).data ≠ [] ∧
      ∀ ch ∈ (M.display x).data, rustIsWhitespace ch = false) :
    ∀ (rs : List (Record M.F)) (g : File M.F) (n : Nat),
      (∀ r ∈ rs, r.count < 2 ^ 64 ∧ r.atoms.length = max r.count 1 ∧
        ∀ a ∈ r.atoms, a.label.data ≠ [] ∧
          ∀ ch ∈ a.label.data, rustIsWhitespace ch = false) →
      runLines M .Count Record.empty g n ((rs.map (recordLines M)).flatten) =
        .ok ⟨g.records ++ rs⟩ := by
  intro rs
  induction rs with
  | nil =>
    intro g n _
    rw [List.map_nil, List.flatten_nil, runLines_nil]
    simp
  | cons r rs ih =>
    intro g n hrs
    have hr := hrs r (by simp)
    rw [List.map_cons, List.flatten_cons]
    rw [runLines_record M hM1 hM2 r g n _ hr.1 hr.2.1 hr.2.2]
    rw [ih (g.push r) (n + r.atoms.length + 3)
      (fun r' hr' => hrs r' (by simp [hr']))]
    simp [File.push]

/-- C1 (amended): for a Container produced by a successful parse of lines
containing no newline character (as lines from a reader always are), if no
record's comment ends with a carriage return, then — for any float model
whose display/parse pair round-trips and displays whitespace-free nonempty
tokens, as Rust's `f64` pair does — rendering the container and parsing the
rendered text again succeeds and returns the very same container. -/
theorem c1_round_trip (M : FloatModel) (hM : M.Good) (lines : List String)
    (hnl : ∀ l ∈ lines, '\n' ∉ l.data) (c : File M.F)
    (hp : File.try_from M lines = .ok c)
    (hcr : ∀ r ∈ c.records, r.comment.data.reverse.head? ≠ some '\r') :
    File.parseText M (File.render M c) = .ok c := by
  obtain ⟨hM1, hM2⟩ := hM
  have hlen := runLines_len_inv M lines .Count Record.empty ⟨[]⟩ 0 c hp
    (by simp) (by simp) (fun _ => rfl)
  have hwf := runLines_wf_inv M lines .Count Record.empty ⟨[]⟩ 0 c hp hnl
    (by simp) (by show (0 : Nat) < 2 ^ 64; norm_num)
    (by show '\n' ∉ ("" : String).data; decide) (by simp [Record.empty])
  unfold File.parseText
  rw [linesOfStr_fileRender M c (by
    intro r hr
    refine ⟨(hwf r hr).2.1, ?_, ?_⟩
    · intro ch hch heq
      subst heq
      exact hcr r hr hch
    · intro a ha
      have hlab := (hwf r hr).2.2 a ha
      exact ⟨atomRender_no_nl M a hlab.2 (fun x => (hM2 x).2),
        atomRender_no_tail_cr M a hlab.2 (fun x => (hM2 x).2)⟩)]
  unfold File.try_from
  rw [runLines_all_records M hM1 hM2 c.records ⟨[]⟩ 0 (by
    intro r hr
    exact ⟨(hwf r hr).1, hlen r hr, (hwf r hr).2.2⟩)]
  rfl

/-- C1 (counterexample): the parsable input whose comment line came from a
`"\r\r\n"` terminator — the reader strips only the final CRLF, so the
comment keeps one trailing `'\r'` — round-trips to a container whose
comment lost that `'\r'`: re-parsing the rendering does succeed but does
not return an equal container. -/
theorem c1_counterexample :
    File.try_from ratModel ["1", "c\r", "H 0 0 0"] =
      .ok ⟨[⟨1, "c\r",
        [⟨"H", ⟨.finite ⟨0, 0⟩, .finite ⟨0, 0⟩, .finite ⟨0, 0⟩⟩⟩]⟩]⟩ ∧
    File.parseText ratModel (File.render ratModel
      ⟨[⟨1, "c\r",
        [⟨"H", ⟨.finite ⟨0, 0⟩, .finite ⟨0, 0⟩, .finite ⟨0, 0⟩⟩⟩]⟩]⟩) =
      .ok ⟨[⟨1, "c",
        [⟨"H", ⟨.finite ⟨0, 0⟩, .finite ⟨0, 0⟩, .finite ⟨0, 0⟩⟩⟩]⟩]⟩ ∧
    (⟨[⟨1, "c\r",
        [⟨"H", ⟨.finite ⟨0, 0⟩, .finite ⟨0, 0⟩, .finite ⟨0, 0⟩⟩⟩]⟩]⟩ :
      File F64) ≠
      ⟨[⟨1, "c",
        [⟨"H", ⟨.finite ⟨0, 0⟩, .finite ⟨0, 0⟩, .finite ⟨0, 0⟩⟩⟩]⟩]⟩ := by
  refine ⟨by decide, by decide, by decide⟩

/-- C1 (witness): the amended round-trip at a concrete one-record parse
over a concrete `Good` float model. -/
theorem c1_witness :
    File.parseText unitModel (File.render unitModel
      ⟨[⟨1, "c", [⟨"H", ⟨(), (), ()⟩⟩]⟩]⟩) =
      .ok ⟨[⟨1, "c", [⟨"H", ⟨(), (), ()⟩⟩]⟩]⟩ :=
  c1_round_trip unitModel
    ⟨fun _ => rfl, by intro x; cases x; decide⟩
    ["1", "c", "H 0 0 0"] (by decide)
    ⟨[⟨1, "c", [⟨"H", ⟨(), (), ()⟩⟩]⟩]⟩ (by decide) (by decide)

end Xyz

